import Mathlib

/-!
Verification of the flowsquire rule-matching and action-execution core
(`src/core/rule-engine.ts`, with the template/config helpers of
`src/config/index.ts` and the metadata sanitizer).

The TypeScript code is shallowly embedded: JS strings are `List Char`
(`Str`), Node's `path.posix` functions are modeled by executable Lean
functions with the same observable behavior, the filesystem and the
external Ghostscript process are an explicit `World` state threaded
through the executor, and JS `async`/exceptions become explicit
`Except`-style control flow.  JS `String.prototype.toLowerCase` is
modeled on the ASCII range (the only range exercised by the engine's
comparisons).
-/

namespace FlowSquire

/-- JS strings are modeled as lists of characters. -/
abbrev Str := List Char

/-- Coerce a Lean string literal to the `Str` model. -/
def s (x : String) : Str := x.data

/-- ASCII lower-casing of a single character (model of JS `toLowerCase`
on the ASCII range). -/
def lowerChar (c : Char) : Char :=
  if 65 ≤ c.toNat ∧ c.toNat ≤ 90 then Char.ofNat (c.toNat + 32) else c

/-- Model of `String.prototype.toLowerCase` (ASCII range). -/
def toLowerL (x : Str) : Str := x.map lowerChar

/-- Model of `String.prototype.startsWith`. -/
def startsWithL (x pre : Str) : Bool := x.take pre.length = pre

/-- Model of `String.prototype.endsWith`. -/
def endsWithL (x suf : Str) : Bool := x.reverse.take suf.length = suf.reverse

/-- Model of `String.prototype.includes`: `containsL hay needle`. -/
def containsL : Str → Str → Bool
  | [], needle => needle = []
  | c :: rest, needle =>
    if startsWithL (c :: rest) needle then true else containsL rest needle

/-- Fuel-driven scan for `replaceAll`: fuel bounds the number of scanned
positions, so the recursion is structural and kernel-reducible. -/
def replaceAllAux (pat rep : Str) : Nat → Str → Str
  | _, [] => []
  | 0, x => x
  | fuel + 1, c :: rest =>
    if startsWithL (c :: rest) pat then
      rep ++ replaceAllAux pat rep fuel (rest.drop (pat.length - 1))
    else
      c :: replaceAllAux pat rep fuel rest

/-- Model of `String.prototype.replaceAll` (and of a `/.../g` regex
replace with a literal pattern): every non-overlapping occurrence of
`pat` is replaced by `rep`, scanning left to right.  The engine never
calls it with an empty pattern. -/
def replaceAllL (x pat rep : Str) : Str := replaceAllAux pat rep x.length x

/-- Decimal digits. -/
def digitChar (d : Nat) : Char :=
  match d with
  | 0 => '0' | 1 => '1' | 2 => '2' | 3 => '3' | 4 => '4'
  | 5 => '5' | 6 => '6' | 7 => '7' | 8 => '8' | 9 => '9'
  | _ => '*'

/-- Fuel-driven decimal rendering of the digits of `n` (empty for 0). -/
def natToCharsAux : Nat → Nat → Str
  | 0, _ => []
  | fuel + 1, n =>
    if n = 0 then [] else natToCharsAux fuel (n / 10) ++ [digitChar (n % 10)]

/-- Model of JS `String(n)` for a non-negative integer: decimal
representation. -/
def natToChars (n : Nat) : Str :=
  if n = 0 then ['0'] else natToCharsAux (n + 1) n

/-- Model of JS `String(n)` for an integer. -/
def intToChars (i : Int) : Str :=
  if i < 0 then '-' :: natToChars i.natAbs else natToChars i.toNat

/-- Model of `String(n).padStart(2, "0")`. -/
def pad2 (n : Nat) : Str :=
  let d := natToChars n
  if d.length < 2 then '0' :: d else d

/-- Model of JS `Array.prototype.toString` / `join(",")` for a string
array (used by `String(condition.value)` on list values). -/
def joinComma : List Str → Str
  | [] => []
  | [x] => x
  | x :: xs => x ++ ',' :: joinComma xs

/-! ### Node `path.posix` model -/

/-- Model of `p.split("/")` (JS `String.prototype.split` with a one-character
separator: empty fields are kept). -/
def splitSlash : Str → List Str
  | [] => [[]]
  | c :: rest =>
    if c = '/' then [] :: splitSlash rest
    else
      match splitSlash rest with
      | g :: gs => (c :: g) :: gs
      | [] => [[c]]

/-- Join path segments with `/`. -/
def joinSegs : List Str → Str
  | [] => []
  | [x] => x
  | x :: xs => x ++ '/' :: joinSegs xs

/-- One step of Node's `normalizeString`: fold a segment onto the stack
of already-processed segments (head = most recent).  `allowUp` is
Node's `allowAboveRoot` (true for relative paths). -/
def stepSeg (allowUp : Bool) (stack : List Str) (seg : Str) : List Str :=
  if seg = [] ∨ seg = s "." then stack
  else if seg = s ".." then
    match stack with
    | t :: ts => if t = s ".." then (if allowUp then seg :: stack else stack) else ts
    | [] => if allowUp then [seg] else []
  else seg :: stack

/-- Whether a path is absolute (starts with `/`). -/
def isAbs (p : Str) : Bool := p.head? = some '/'

/-- Model of Node `path.posix.normalize`. -/
def normalizeL (p : Str) : Str :=
  if p = [] then s "." else
  let abs := isAbs p
  let trailing := p.getLast? = some '/'
  let stack := (splitSlash p).foldl (stepSeg (¬ abs)) []
  let res := joinSegs stack.reverse
  if res = [] then
    if abs then s "/" else if trailing then s "./" else s "."
  else
    let res := if trailing then res ++ s "/" else res
    if abs then '/' :: res else res

/-- Model of Node `path.posix.join` with two arguments. -/
def pathJoin (a b : Str) : Str :=
  if a = [] ∧ b = [] then s "."
  else normalizeL (if a = [] then b else if b = [] then a else a ++ '/' :: b)

/-- Strip trailing `/` characters. -/
def stripTrailingSlashes (p : Str) : Str :=
  (p.reverse.dropWhile (fun c => c = '/')).reverse

/-- Everything after the last `/` (the whole string when there is no
`/`). -/
def afterLastSlash (p : Str) : Str :=
  (p.reverse.takeWhile (fun c => c ≠ '/')).reverse

/-- Model of Node `path.posix.basename` (one-argument form). -/
def basenameL (p : Str) : Str := afterLastSlash (stripTrailingSlashes p)

/-- Model of Node `path.posix.basename(p, ext)`: the basename with the
suffix `ext` removed, unless the basename is `ext` itself. -/
def basenameExtL (p ext : Str) : Str :=
  let b := basenameL p
  if ext ≠ [] ∧ b ≠ ext ∧ endsWithL b ext then b.take (b.length - ext.length) else b

/-- Index (from the front) of the last `.` in a string. -/
def lastDotIdx : Str → Option Nat
  | [] => none
  | c :: rest =>
    match lastDotIdx rest with
    | some i => some (i + 1)
    | none => if c = '.' then some 0 else none

/-- Model of Node `path.posix.extname`: the suffix of the (trailing-slash
stripped) final segment from its last `.`, empty when the segment has no
dot, starts with its only dot, or is `..`. -/
def extnameL (p : Str) : Str :=
  let b := afterLastSlash (stripTrailingSlashes p)
  if b = s ".." then [] else
  match lastDotIdx b with
  | none => []
  | some 0 => []
  | some i => b.drop i

/-- Model of Node `path.posix.dirname`. -/
def dirnameL (p : Str) : Str :=
  if p = [] then s "." else
  let hasRoot := p.head? = some '/'
  let rest := p.reverse.dropWhile (fun c => c = '/')
  let rest2 := rest.dropWhile (fun c => c ≠ '/')
  match rest2 with
  | [] => if hasRoot then s "/" else s "."
  | [_] => s "/"
  | _ => if hasRoot ∧ rest2.length - 1 = 1 then s "//" else p.take (rest2.length - 1)

/-! ### Data model (`src/types/index.ts`) -/

/-- Model of `Condition.type` as declared in `src/types/index.ts` (note that
`size` is declared but has no case in `evaluateCondition`). -/
inductive CondType
  | extension | path | size | name_pattern | name_contains
  | name_starts_with | name_ends_with | size_greater_than_mb
deriving DecidableEq

/-- Model of `Condition.operator` as declared (note that `greater_than` and
`less_than` are declared but have no case in `matchValue`). -/
inductive CondOperator
  | equals | contains | matches | greater_than | less_than | opIn
deriving DecidableEq

/-- Model of `Condition.value : string | number | string[]`. -/
inductive CondValue
  | vStr (x : Str)
  | vNum (n : Int)
  | vList (l : List Str)
deriving DecidableEq

structure Condition where
  type : CondType
  operator : CondOperator
  value : CondValue
deriving DecidableEq

inductive ActionType
  | move | copy | rename | compress
deriving DecidableEq

inductive Quality
  | low | medium | high
deriving DecidableEq

structure CompressConfig where
  quality : Quality
  archiveOriginal : Option Bool := none
deriving DecidableEq

structure ActionConfig where
  destination : Str
  pattern : Option Str := none
  createDirs : Option Bool := none
  compress : Option CompressConfig := none
deriving DecidableEq

structure Action where
  type : ActionType
  config : ActionConfig
deriving DecidableEq

inductive TriggerType
  | file_created | file_modified | screenshot | manual
deriving DecidableEq

/-- Model of `Trigger.config : Record<string, unknown>` is modeled as a string
association list (only its `folder` entry is ever consulted, and not by
this core). -/
structure Trigger where
  type : TriggerType
  config : List (Str × Str) := []
deriving DecidableEq

/-- Model of `Rule` (`createdAt`/`updatedAt` timestamps are carried by the
persistence layer and never consulted by the rule engine; they are
omitted from the model). -/
structure Rule where
  id : Str
  name : Str
  enabled : Bool
  priority : Int
  tags : List Str := []
  trigger : Trigger := ⟨TriggerType.file_created, []⟩
  conditions : List Condition
  actions : List Action := []
deriving DecidableEq

inductive ActionStatus
  | pending | success | failed
deriving DecidableEq

/-- Model of `ActionResult` as declared in `src/types/index.ts`. -/
structure ActionResult where
  action : Action
  status : ActionStatus
  sourcePath : Option Str := none
  destinationPath : Option Str := none
  error : Option Str := none
deriving DecidableEq

/-- The `{appName?, domain?}` record handed to the executor (absent
fields are JS `undefined`, which is falsy like the empty string). -/
structure Metadata where
  appName : Option Str := none
  domain : Option Str := none
deriving DecidableEq

/-- The portion of `FlowSquireConfig` the engine reads: the configured
path placeholders, in `Object.entries` order. -/
structure Config where
  paths : List (Str × Str) := []

/-- The wall-clock components read from `new Date()` (JS accessors:
`getMonth` is 0-based, `getDate` is the day of month). -/
structure DateParts where
  year : Nat
  month0 : Nat
  day : Nat
  hour : Nat
  minute : Nat
  second : Nat
deriving DecidableEq

/-- Oracles for the effectful/unembeddable predicates of condition
evaluation: `regexTest pat x` stands for
`new RegExp(pat, "i").test(x)` with an invalid pattern collapsed to
`false` (the `try`/`catch` in `matchValue`); `statSize` is
`fs.statSync(path).size` (`none` = stat failure); `parseNum` is JS
`Number(string)` (`none` = `NaN`). -/
structure CondEnv where
  regexTest : Str → Str → Bool
  statSize : Str → Option Nat := fun _ => none
  parseNum : Str → Option ℚ := fun _ => none

/-- State and configuration of the external Ghostscript tool:
`available` = the binary can be spawned, `exitCode`/`errorOutput` = the
process's exit status and captured stderr when it runs. -/
structure GsState where
  available : Bool
  exitCode : Nat := 0
  errorOutput : Str := []
  spawnErrMessage : Str := []
deriving DecidableEq

/-- The filesystem-and-process world the executor mutates: the set of
existing files, the created directories, the log of Ghostscript spawns
(output-file argument of each spawn, most recent first), an oracle for
`fs.mkdir` failures (the error code, `none` = success), and the
Ghostscript state. -/
structure World where
  files : List Str
  dirs : List Str := []
  spawnedOutputs : List Str := []
  mkdirFailCode : Str → Option Str := fun _ => none
  gs : GsState := ⟨true, 0, [], []⟩

/-! ### Condition evaluation (`rule-engine.ts`) -/

/-- JS `String(condition.value)`. -/
def valueToString : CondValue → Str
  | .vStr x => x
  | .vNum n => intToChars n
  | .vList l => joinComma l

/-- Model of `matchValue(value, condition)`: operator dispatch.  `greater_than`
and `less_than` fall through to the `default: return false` branch. -/
def matchValue (env : CondEnv) (value : Str) (condition : Condition) : Bool :=
  let testValue := toLowerL value
  match condition.operator with
  | .equals => decide (testValue = toLowerL (valueToString condition.value))
  | .contains => containsL testValue (toLowerL (valueToString condition.value))
  | .matches => env.regexTest (valueToString condition.value) testValue
  | .opIn =>
    match condition.value with
    | .vList l => l.any (fun v => decide (toLowerL v = testValue))
    | _ => false
  | .greater_than => false
  | .less_than => false

/-- Model of `evaluateCondition(condition, filePath)`.  The declared type `size`
has no case and falls through to `default: return false`. -/
def evaluateCondition (env : CondEnv) (condition : Condition) (filePath : Str) : Bool :=
  let fileName := basenameL filePath
  let fileNameWithoutExt := basenameExtL filePath (extnameL filePath)
  let ext := toLowerL (extnameL filePath)
  let conditionValue := toLowerL (valueToString condition.value)
  match condition.type with
  | .extension =>
    let cleanExt := if startsWithL ext (s ".") then ext.drop 1 else ext
    matchValue env cleanExt condition
  | .name_pattern => matchValue env fileName condition
  | .name_contains => containsL (toLowerL fileNameWithoutExt) conditionValue
  | .name_starts_with => startsWithL (toLowerL fileNameWithoutExt) conditionValue
  | .name_ends_with => endsWithL (toLowerL fileNameWithoutExt) conditionValue
  | .size_greater_than_mb =>
    match env.statSize filePath with
    | none => false
    | some bytes =>
      match env.parseNum conditionValue with
      | none => false
      | some t => decide ((bytes : ℚ) / 1048576 > t)
  | .path => matchValue env filePath condition
  | .size => false

/-- Model of `evaluateConditions(conditions, filePath)`:
`conditions.every(c => evaluateCondition(c, filePath))`. -/
def evaluateConditions (env : CondEnv) (conditions : List Condition) (filePath : Str) : Bool :=
  conditions.all (fun condition => evaluateCondition env condition filePath)

/-! ### Rule selection (`findMatchingRules`) -/

/-- Model of `rules.sort((a, b) => (b.priority || 0) - (a.priority || 0))`.  The
comparator is consistent and ES2019 `Array.prototype.sort` is stable, so
the sorted array is the unique stable descending-priority reordering of
the input; stable insertion sort computes exactly that list. -/
def sortRulesByPriority (rules : List Rule) : List Rule :=
  List.insertionSort (fun a b => b.priority ≤ a.priority) rules

/-- Return value of `findMatchingRules(rules, filePath)`: the sorted
array filtered to the rules whose conditions all match. -/
def findMatchingRules (env : CondEnv) (rules : List Rule) (filePath : Str) : List Rule :=
  (sortRulesByPriority rules).filter
    (fun rule => evaluateConditions env rule.conditions filePath)

/-- Because `Array.prototype.sort` sorts the caller's array in place,
after `findMatchingRules(rules, filePath)` returns the caller's `rules`
array holds this list (not the original order). -/
def findMatchingRulesPost (rules : List Rule) : List Rule := sortRulesByPriority rules

/-! ### Template expansion and sanitization (`config/index.ts`,
`screenshot-metadata.ts`) -/

/-- The character class `[<>:"\/\\|?*]` of `sanitizeForPath`. -/
def badPathChar (c : Char) : Bool :=
  c = '<' ∨ c = '>' ∨ c = ':' ∨ c = '"' ∨ c = '/' ∨ c = '\\' ∨ c = '|' ∨ c = '?' ∨ c = '*'

/-- JS `\s` on the ASCII range. -/
def wsChar (c : Char) : Bool :=
  c = ' ' ∨ c = '\t' ∨ c = '\n' ∨ c = '\r' ∨ c = '\x0b' ∨ c = '\x0c'

/-- Model of `.replace(/\s+/g, " ")`: collapse every whitespace run to a single
space (structural scan carrying a previous-was-whitespace flag). -/
def collapseWsAux : Bool → Str → Str
  | _, [] => []
  | prevWs, c :: rest =>
    if wsChar c then
      (if prevWs then [] else [' ']) ++ collapseWsAux true rest
    else c :: collapseWsAux false rest

def collapseWs (x : Str) : Str := collapseWsAux false x

/-- Model of `.trim()` (ASCII whitespace). -/
def trimL (x : Str) : Str :=
  ((x.dropWhile (fun c => wsChar c)).reverse.dropWhile (fun c => wsChar c)).reverse

/-- Model of `sanitizeForPath`: replace path-illegal characters by `-`, collapse
whitespace runs, trim, truncate to 50 characters. -/
def sanitizeForPath (input : Str) : Str :=
  (trimL (collapseWs (input.map (fun c => if badPathChar c then '-' else c)))).take 50

/-- Model of `replaceTemplateVariables(template, config, metadata?)`: substitute
every configured `\x7bkey\x7d` path placeholder, then — only when a
metadata object is supplied — substitute `{app}` and `{domain}` with the
sanitized (or default) metadata values. -/
def replaceTemplateVariables (template : Str) (config : Config) (metadata : Option Metadata) :
    Str :=
  let result := config.paths.foldl
    (fun acc kv => replaceAllL acc (s "\x7b" ++ kv.1 ++ s "\x7d") kv.2) template
  match metadata with
  | none => result
  | some m =>
    let appVal := match m.appName with
      | some a => if a = [] then s "Unknown" else sanitizeForPath a
      | none => s "Unknown"
    let domVal := match m.domain with
      | some d => if d = [] then s "General" else sanitizeForPath d
      | none => s "General"
    replaceAllL (replaceAllL result (s "{app}") appVal) (s "{domain}") domVal

/-! ### Pattern application (`applyPattern`) -/

def monthNames : List Str :=
  [s "January", s "February", s "March", s "April", s "May", s "June",
   s "July", s "August", s "September", s "October", s "November", s "December"]

/-- The file name `applyPattern` computes: the pattern with the
date/time and `{filename}`/`{ext}` placeholders substituted, with the
source extension appended when the expansion does not already end with
it. -/
def patternFileName (pattern sourcePath : Str) (now : DateParts) : Str :=
  let fileNameWithoutExt := basenameExtL sourcePath (extnameL sourcePath)
  let ext := extnameL sourcePath
  let placeholders : List (Str × Str) :=
    [(s "{filename}", fileNameWithoutExt),
     (s "{ext}", ext),
     (s "{YYYY}", natToChars now.year),
     (s "{MM}", pad2 (now.month0 + 1)),
     (s "{Month}", monthNames.getD now.month0 (s "undefined")),
     (s "{DD}", pad2 now.day),
     (s "{HH}", pad2 now.hour),
     (s "{mm}", pad2 now.minute),
     (s "{ss}", pad2 now.second)]
  let result := placeholders.foldl (fun acc kv => replaceAllL acc kv.1 kv.2) pattern
  if endsWithL result ext then result else result ++ ext

/-- Model of `applyPattern(destination, pattern, sourcePath, metadata?)`; the
`metadata` parameter is accepted but unused, as in the source.  `now`
models `new Date()`.  `destination.split(path.sep).length === 1` is
rendered as "no separator occurs in `destination`". -/
def applyPattern (destination pattern sourcePath : Str) (metadata : Option Metadata)
    (now : DateParts) : Str :=
  let destHasFilename := ¬ containsL destination (s "/") ∧ extnameL destination ≠ []
  let destDir := if destHasFilename then dirnameL destination else destination
  pathJoin destDir (patternFileName pattern sourcePath now)

/-! ### Collision resolution (`resolveCollision`) -/

/-- The candidate `path.join(dir, base + "-" + counter + ext)`. -/
def collisionCand (dir base ext : Str) (n : Nat) : Str :=
  pathJoin dir (base ++ '-' :: (natToChars n ++ ext))

/-- The `while (true)` probe loop of `resolveCollision`, with explicit
fuel; `files.length + 1` candidates cannot all be occupied, so the fuel
is never exhausted. -/
def collisionLoop (files : List Str) (dir base ext : Str) : Nat → Nat → Str
  | 0, counter => collisionCand dir base ext counter
  | fuel + 1, counter =>
    let newPath := collisionCand dir base ext counter
    if newPath ∈ files then collisionLoop files dir base ext fuel (counter + 1)
    else newPath

/-- Model of `resolveCollision(filePath, dryRun)` probing the file set `files`. -/
def resolveCollision (files : List Str) (filePath : Str) (dryRun : Bool) : Str :=
  if dryRun then filePath
  else if filePath ∈ files then
    let dir := dirnameL filePath
    let ext := extnameL filePath
    let base := basenameExtL filePath ext
    collisionLoop files dir base ext (files.length + 1) 1
  else filePath

/-! ### Compression adapter (`compressPdf`) -/

def srcNotFoundMsg (p : Str) : Str := s "Source file not found: " ++ p

def spawnFailMsg (errMessage : Str) : Str :=
  s "Failed to spawn Ghostscript: " ++ errMessage ++
    s ". Please install Ghostscript (brew install ghostscript)"

def gsFailMsg (code : Nat) (errOutput : Str) : Str :=
  s "Ghostscript failed with code " ++ natToChars code ++ s ": " ++ errOutput

/-- Quality → `-dPDFSETTINGS` preset. -/
def pdfSettingsOf : Quality → Str
  | .low => s "/screen"
  | .medium => s "/ebook"
  | .high => s "/printer"

/-- Add a path to a file set. -/
def insertFile (p : Str) (l : List Str) : List Str := if p ∈ l then l else p :: l

/-- Model of `compressPdf(sourcePath, destinationPath, quality)`: verify
the source exists (fail fast without spawning otherwise), then spawn
Ghostscript — recorded as `(pdfSettings, outputFile)` in
`spawnedOutputs` — and reject on spawn failure or non-zero exit, resolve
on exit 0 (the output file then exists).  (A partial output file left by
a failed run is not modeled.) -/
def compressPdf (sourcePath destinationPath : Str) (quality : Quality) (w : World) :
    Except Str Unit × World :=
  if sourcePath ∈ w.files then
    let w1 := { w with
      spawnedOutputs := (pdfSettingsOf quality ++ ':' :: destinationPath) :: w.spawnedOutputs }
    if w.gs.available then
      if w.gs.exitCode = 0 then
        (Except.ok (), { w1 with files := insertFile destinationPath w1.files })
      else (Except.error (gsFailMsg w.gs.exitCode w.gs.errorOutput), w1)
    else (Except.error (spawnFailMsg w.gs.spawnErrMessage), w1)
  else (Except.error (srcNotFoundMsg sourcePath), w)

/-! ### Action execution (`executeAction`, `executeActions`) -/

/-- JS truthiness of `action.config.pattern` (`undefined` and `""` are
falsy). -/
def patternTruthy : Option Str → Bool
  | some p => ¬ p.isEmpty
  | none => false

/-- The category-detection helper `detectPdfCategory(fileName)`: first
matching keyword wins, invoice family before banking before study. -/
def detectPdfCategory (fileName : Str) : Str :=
  let l := toLowerL fileName
  if containsL l (s "invoice") then s "Invoices"
  else if containsL l (s "bill") then s "Invoices"
  else if containsL l (s "payment") then s "Invoices"
  else if containsL l (s "receipt") then s "Invoices"
  else if containsL l (s "tax") then s "Invoices"
  else if containsL l (s "bank") then s "Finance"
  else if containsL l (s "statement") then s "Finance"
  else if containsL l (s "transaction") then s "Finance"
  else if containsL l (s "finance") then s "Finance"
  else if containsL l (s "credit") then s "Finance"
  else if containsL l (s "debit") then s "Finance"
  else if containsL l (s "notes") then s "Study"
  else if containsL l (s "note") then s "Study"
  else if containsL l (s "lecture") then s "Study"
  else if containsL l (s "study") then s "Study"
  else if containsL l (s "class") then s "Study"
  else if containsL l (s "course") then s "Study"
  else if containsL l (s "assignment") then s "Study"
  else if containsL l (s "homework") then s "Study"
  else if containsL l (s "exam") then s "Study"
  else s "Unsorted"

/-- The destination-resolution pipeline of `executeAction` before any
filesystem effect: template expansion, `{category}` substitution,
directory/filename completion, pattern application. -/
def resolveDestination (action : Action) (sourcePath : Str) (config : Config)
    (metadata : Option Metadata) (now : DateParts) : Str :=
  let fileName := basenameL sourcePath
  let category := detectPdfCategory fileName
  let d0 := replaceTemplateVariables action.config.destination config metadata
  let d1 := replaceAllL d0 (s "{category}") category
  let d2 :=
    if extnameL d1 = [] ∧ ¬ patternTruthy action.config.pattern then pathJoin d1 fileName
    else d1
  if patternTruthy action.config.pattern then
    applyPattern d2 (action.config.pattern.getD []) sourcePath metadata now
  else d2

/-- Placeholder for Node's per-syscall `ENOENT` message. -/
def enoentMsg (p : Str) : Str := s "ENOENT: no such file or directory: " ++ p

/-- The `fs.mkdir(destDir, { recursive: true })` block of
`executeAction`: run unless `createDirs === false`, skipped in dry-run;
an `EEXIST` error code is swallowed, any other error is rethrown. -/
def mkdirStep (createDirs : Option Bool) (destDir : Str) (dryRun : Bool) (w : World) :
    Except Str World :=
  if createDirs ≠ some false ∧ ¬ dryRun then
    match w.mkdirFailCode destDir with
    | some code => if code = s "EEXIST" then Except.ok w else Except.error code
    | none => Except.ok { w with dirs := insertFile destDir w.dirs }
  else Except.ok w

/-- The per-type `switch` of `executeAction`: `fs.rename` for
move/rename, `fs.copyFile` for copy, `compressPdf` (default quality
`medium`) for compress. -/
def fsOp (t : ActionType) (ccfg : Option CompressConfig) (sourcePath dest : Str) (w : World) :
    Except Str Unit × World :=
  match t with
  | .move =>
    if sourcePath ∈ w.files then
      (Except.ok (), { w with files := insertFile dest (w.files.erase sourcePath) })
    else (Except.error (enoentMsg sourcePath), w)
  | .rename =>
    if sourcePath ∈ w.files then
      (Except.ok (), { w with files := insertFile dest (w.files.erase sourcePath) })
    else (Except.error (enoentMsg sourcePath), w)
  | .copy =>
    if sourcePath ∈ w.files then
      (Except.ok (), { w with files := insertFile dest w.files })
    else (Except.error (enoentMsg sourcePath), w)
  | .compress =>
    let quality := match ccfg with
      | some cc => cc.quality
      | none => Quality.medium
    compressPdf sourcePath dest quality w

/-- The body of `executeAction`'s `try` block: resolution, `fs.mkdir`
(skipped in dry-run; `EEXIST` tolerated), collision resolution, then the
per-type filesystem operation (skipped entirely in dry-run).  Returns
the resolved destination or the thrown error, together with the world as
mutated up to the throw point (the `catch` does not roll back). -/
def executeActionCore (action : Action) (sourcePath : Str) (dryRun : Bool)
    (metadata : Option Metadata) (config : Config) (now : DateParts) (w : World) :
    Except Str Str × World :=
  let d3 := resolveDestination action sourcePath config metadata now
  match mkdirStep action.config.createDirs (dirnameL d3) dryRun w with
  | Except.error e => (Except.error e, w)
  | Except.ok w1 =>
    let dest := resolveCollision w1.files d3 dryRun
    if dryRun then (Except.ok dest, w1)
    else
      match fsOp action.type action.config.compress sourcePath dest w1 with
      | (Except.ok _, w2) => (Except.ok dest, w2)
      | (Except.error e, w2) => (Except.error e, w2)

/-- Model of `executeAction`: the `try`/`catch` wrapper building the
`ActionResult` object. -/
def executeAction (action : Action) (sourcePath : Str) (dryRun : Bool)
    (metadata : Option Metadata) (config : Config) (now : DateParts) (w : World) :
    ActionResult × World :=
  match executeActionCore action sourcePath dryRun metadata config now w with
  | (Except.ok dest, w') => (⟨action, .success, some sourcePath, some dest, none⟩, w')
  | (Except.error e, w') => (⟨action, .failed, some sourcePath, none, some e⟩, w')

/-- The `currentPath` update of the `executeActions` loop:
`if (result.status === "success" && result.destinationPath)` (a truthy,
i.e. non-empty, destination). -/
def chainNext (currentPath : Str) (r : ActionResult) : Str :=
  match r.status, r.destinationPath with
  | .success, some d => if d = [] then currentPath else d
  | _, _ => currentPath

/-- Model of `executeActions(actions, sourcePath, dryRun, metadata?)`: run the
actions in order, threading `currentPath` (advanced only on success)
and the world. -/
def executeActions (actions : List Action) (sourcePath : Str) (dryRun : Bool)
    (metadata : Option Metadata) (config : Config) (now : DateParts) (w : World) :
    List ActionResult × World :=
  match actions with
  | [] => ([], w)
  | action :: rest =>
    let step := executeAction action sourcePath dryRun metadata config now w
    let next := executeActions rest (chainNext sourcePath step.1) dryRun metadata config now step.2
    (step.1 :: next.1, next.2)

/-- The input paths the chaining policy dictates: each action receives
the destination of the most recent successful action, the original
source before any success. -/
def chainInputs (sourcePath : Str) : List ActionResult → List Str
  | [] => []
  | r :: rs => sourcePath :: chainInputs (chainNext sourcePath r) rs

/-- A plain path segment: nonempty, not `.` or `..`, and without a
separator.  Such a segment survives `path.join` normalization as the
final path component. -/
def NormalSeg (seg : Str) : Prop :=
  seg ≠ [] ∧ seg ≠ s "." ∧ seg ≠ s ".." ∧ '/' ∉ seg

/-! ### Concrete fixtures used by witnesses and counterexamples -/

/-- A condition environment whose regex oracle rejects everything. -/
def env0 : CondEnv := ⟨fun _ _ => false, fun _ => none, fun _ => none⟩

/-- A rule with the given id and priority and no conditions. -/
def rulePri (id : Str) (pr : Int) : Rule :=
  ⟨id, id, true, pr, [], ⟨.file_created, []⟩, [], []⟩

/-- A condition of the declared-but-unhandled type `size`. -/
def sizeCond : Condition := ⟨.size, .equals, .vNum 5⟩

/-- A rule carrying a `size` condition. -/
def ruleSize : Rule := ⟨s "sz", s "sz", true, 0, [], ⟨.file_created, []⟩, [sizeCond], []⟩

def cfg0 : Config := ⟨[]⟩

def now0 : DateParts := ⟨2026, 1, 1, 0, 0, 0⟩

/-- A world with one source file, a working Ghostscript, and no mkdir
failures. -/
def w0 : World := ⟨[s "/src/a.pdf"], [], [], fun _ => none, ⟨true, 0, [], []⟩⟩

/-- A world whose Ghostscript binary cannot be spawned. -/
def wNoGs : World := ⟨[s "/src/a.pdf"], [], [], fun _ => none, ⟨false, 0, [], s "ENOENT"⟩⟩

/-- A world whose Ghostscript exits non-zero with captured stderr. -/
def wGsFail : World := ⟨[s "/src/a.pdf"], [], [], fun _ => none, ⟨true, 1, s "bad pdf", []⟩⟩

def moveAct : Action := ⟨.move, ⟨s "/dest", none, none, none⟩⟩

def compressAct : Action := ⟨.compress, ⟨s "/dest", none, none, some ⟨Quality.medium, none⟩⟩⟩

instance : IsTotal Rule (fun a b => b.priority ≤ a.priority) :=
  ⟨fun a b => le_total b.priority a.priority⟩

instance : IsTrans Rule (fun a b => b.priority ≤ a.priority) :=
  ⟨fun _ _ _ hab hbc => le_trans hbc hab⟩

/-! ## Helper lemmas -/

theorem lowerChar_of_not {c : Char} (h : ¬ (65 ≤ c.toNat ∧ c.toNat ≤ 90)) :
    lowerChar c = c := by
  unfold lowerChar
  exact if_neg h

theorem toNat_lowerChar_of_upper {c : Char} (h1 : 65 ≤ c.toNat) (h2 : c.toNat ≤ 90) :
    (lowerChar c).toNat = c.toNat + 32 := by
  have hv : (c.toNat + 32).isValidChar := Or.inl (by omega)
  simp only [lowerChar, if_pos (And.intro h1 h2)]
  unfold Char.ofNat
  rw [dif_pos hv]
  rfl

theorem lowerChar_idem (c : Char) : lowerChar (lowerChar c) = lowerChar c := by
  by_cases h : 65 ≤ c.toNat ∧ c.toNat ≤ 90
  · have ht : (lowerChar c).toNat = c.toNat + 32 := toNat_lowerChar_of_upper h.1 h.2
    exact lowerChar_of_not (by omega)
  · rw [lowerChar_of_not h, lowerChar_of_not h]

theorem toLowerL_idem (x : Str) : toLowerL (toLowerL x) = toLowerL x := by
  simp only [toLowerL, List.map_map]
  congr 1
  funext c
  exact lowerChar_idem c

/-- Filtering by a predicate whose holders are pairwise related commutes
with `orderedInsert`: the inserted element lands in front of the kept
elements exactly when it satisfies the predicate. -/
theorem filter_orderedInsert {α : Type} {r : α → α → Prop} [DecidableRel r]
    {q : α → Bool} (hq : ∀ x y, q x = true → q y = true → r x y)
    (a : α) (l : List α) :
    (List.orderedInsert r a l).filter q =
      if q a then a :: l.filter q else l.filter q := by
  induction l with
  | nil =>
    simp only [List.orderedInsert, List.filter_cons, List.filter_nil]
  | cons b l ih =>
    by_cases hab : r a b
    · have hins : List.orderedInsert r a (b :: l) = a :: b :: l := by
        simp [List.orderedInsert, hab]
      rw [hins]
      by_cases hqa : q a <;> simp [List.filter_cons, hqa]
    · have hins : List.orderedInsert r a (b :: l) = b :: List.orderedInsert r a l := by
        simp [List.orderedInsert, hab]
      rw [hins, List.filter_cons]
      by_cases hqb : q b
      · have hqa : ¬ q a = true := fun hqa => hab (hq a b hqa hqb)
        simp [hqb, ih, hqa, List.filter_cons]
      · simp [hqb, ih, List.filter_cons]

/-- Stability of insertion sort: elements satisfying a predicate whose
holders are pairwise related keep their original relative order. -/
theorem filter_insertionSort {α : Type} {r : α → α → Prop} [DecidableRel r]
    {q : α → Bool} (hq : ∀ x y, q x = true → q y = true → r x y) :
    ∀ l : List α, (List.insertionSort r l).filter q = l.filter q
  | [] => rfl
  | a :: l => by
    rw [List.insertionSort, filter_orderedInsert hq, filter_insertionSort hq l,
      List.filter_cons]

theorem startsWithL_append (x y n : Str) (h : startsWithL x n = true) :
    startsWithL (x ++ y) n = true := by
  unfold startsWithL at h ⊢
  have hx : x.take n.length = n := of_decide_eq_true h
  have hlen : n.length ≤ x.length := by
    have h2 := congrArg List.length hx
    rw [List.length_take] at h2
    omega
  apply decide_eq_true
  rw [List.take_append_eq_append_take, hx, Nat.sub_eq_zero_of_le hlen, List.take_zero,
    List.append_nil]

theorem containsL_nil_needle (z : Str) : containsL z [] = true := by
  cases z <;> rfl

theorem containsL_append (x y n : Str) (h : containsL x n = true) :
    containsL (x ++ y) n = true := by
  induction x with
  | nil =>
    have hn : n = [] := of_decide_eq_true h
    subst hn
    exact containsL_nil_needle y
  | cons c x ih =>
    rw [List.cons_append]
    unfold containsL at h ⊢
    by_cases hs : startsWithL (c :: x) n = true
    · have hs2 : startsWithL (c :: (x ++ y)) n = true := by
        have h3 := startsWithL_append (c :: x) y n hs
        rwa [List.cons_append] at h3
      rw [if_pos hs2]
    · rw [if_neg hs] at h
      split
      · rfl
      · exact ih h

theorem containsL_suffix (a b : Str) : containsL (a ++ b) b = true := by
  induction a with
  | nil =>
    cases b with
    | nil => rfl
    | cons c r =>
      show containsL (c :: r) (c :: r) = true
      unfold containsL
      have hs : startsWithL (c :: r) (c :: r) = true := by
        unfold startsWithL
        rw [List.take_length]
        exact decide_eq_true rfl
      rw [if_pos hs]
  | cons c a ih =>
    show containsL (c :: (a ++ b)) b = true
    unfold containsL
    split
    · rfl
    · exact ih

/-- In dry-run mode a single action always succeeds with the resolved
destination and leaves the world untouched. -/
theorem executeAction_dryRun (a : Action) (p : Str) (md : Option Metadata) (cfg : Config)
    (now : DateParts) (w : World) :
    executeAction a p true md cfg now w =
      (⟨a, ActionStatus.success, some p, some (resolveDestination a p cfg md now), none⟩, w) := by
  unfold executeAction executeActionCore mkdirStep resolveCollision
  simp

theorem executeActions_dryRun (actions : List Action) (src : Str) (md : Option Metadata)
    (cfg : Config) (now : DateParts) (w : World) :
    (executeActions actions src true md cfg now w).2 = w
    ∧ (executeActions actions src true md cfg now w).1.length = actions.length
    ∧ ∀ r ∈ (executeActions actions src true md cfg now w).1,
        r.status = ActionStatus.success ∧ r.destinationPath ≠ none := by
  induction actions generalizing src w with
  | nil => exact ⟨rfl, rfl, by intro r hr; cases hr⟩
  | cons a rest ih =>
    have hstep := executeAction_dryRun a src md cfg now w
    simp only [executeActions, hstep]
    obtain ⟨ih1, ih2, ih3⟩ := ih (chainNext src
      ⟨a, ActionStatus.success, some src, some (resolveDestination a src cfg md now), none⟩) w
    refine ⟨ih1, by simpa using ih2, ?_⟩
    intro r hr
    rcases List.mem_cons.mp hr with h | h
    · subst h
      exact ⟨rfl, by simp⟩
    · exact ih3 r h

/-! ## Claim C2 -/

/-- Claim C2: with `dryRun = true`, `executeActions` on an existing
source file returns one successful `ActionResult` per action, each
carrying the destination path that would result, and the world — files,
directories, spawned processes — is exactly unchanged: no directory
creation, no rename, no copy, no compression spawn. -/
theorem c2_dry_run (actions : List Action) (src : Str) (md : Option Metadata) (cfg : Config)
    (now : DateParts) (w : World) (hsrc : src ∈ w.files) :
    (executeActions actions src true md cfg now w).2 = w
    ∧ (executeActions actions src true md cfg now w).1.length = actions.length
    ∧ ∀ r ∈ (executeActions actions src true md cfg now w).1,
        r.status = ActionStatus.success ∧ r.destinationPath ≠ none :=
  executeActions_dryRun actions src md cfg now w

/-- Witness for C2: a dry run of a move-then-compress chain mutates
nothing and reports two successful results. -/
theorem c2_dry_run_witness :
    s "/src/a.pdf" ∈ w0.files
    ∧ (executeActions [moveAct, compressAct] (s "/src/a.pdf") true none cfg0 now0 w0).2 = w0
    ∧ (executeActions [moveAct, compressAct] (s "/src/a.pdf") true none cfg0 now0 w0).1.length =
        [moveAct, compressAct].length :=
  ⟨by decide,
   (c2_dry_run [moveAct, compressAct] (s "/src/a.pdf") none cfg0 now0 w0 (by decide)).1,
   (c2_dry_run [moveAct, compressAct] (s "/src/a.pdf") none cfg0 now0 w0 (by decide)).2.1⟩

/-! ## Claim C1 -/

theorem executeAction_action (a : Action) (p : Str) (dR : Bool) (md : Option Metadata)
    (cfg : Config) (now : DateParts) (w : World) :
    (executeAction a p dR md cfg now w).1.action = a := by
  rcases h : executeActionCore a p dR md cfg now w with ⟨res, w'⟩
  unfold executeAction
  rw [h]
  cases res <;> rfl

theorem executeAction_sourcePath (a : Action) (p : Str) (dR : Bool) (md : Option Metadata)
    (cfg : Config) (now : DateParts) (w : World) :
    (executeAction a p dR md cfg now w).1.sourcePath = some p := by
  rcases h : executeActionCore a p dR md cfg now w with ⟨res, w'⟩
  unfold executeAction
  rw [h]
  cases res <;> rfl

/-- A rejected compression leaves the file set untouched. -/
theorem compressPdf_error_files (src dst : Str) (q : Quality) (w : World) (e : Str) (w2 : World)
    (h : compressPdf src dst q w = (Except.error e, w2)) : w2.files = w.files := by
  unfold compressPdf at h
  split at h
  · split at h
    · split at h
      · cases h
      · injection h with h1 h2
        subst h2
        rfl
    · injection h with h1 h2
      subst h2
      rfl
  · injection h with h1 h2
    subst h2
    rfl

/-- A successful `mkdirStep` only (possibly) adds a directory: the file
set is unchanged. -/
theorem mkdirStep_ok_files (cd : Option Bool) (dd : Str) (dR : Bool) (w w1 : World)
    (h : mkdirStep cd dd dR w = Except.ok w1) : w1.files = w.files := by
  unfold mkdirStep at h
  split at h
  · split at h
    · split at h
      · injection h with h1
        subst h1
        rfl
      · cases h
    · injection h with h1
      subst h1
      rfl
  · injection h with h1
    subst h1
    rfl

/-- A failing filesystem operation leaves the file set untouched. -/
theorem fsOp_error_files (t : ActionType) (c : Option CompressConfig) (p d : Str) (w : World)
    (e : Str) (w2 : World) (h : fsOp t c p d w = (Except.error e, w2)) : w2.files = w.files := by
  cases t with
  | move =>
    unfold fsOp at h
    dsimp only at h
    by_cases hp : p ∈ w.files
    · rw [if_pos hp] at h
      injection h with h1 h2
      cases h1
    · rw [if_neg hp] at h
      injection h with h1 h2
      subst h2
      rfl
  | rename =>
    unfold fsOp at h
    dsimp only at h
    by_cases hp : p ∈ w.files
    · rw [if_pos hp] at h
      injection h with h1 h2
      cases h1
    · rw [if_neg hp] at h
      injection h with h1 h2
      subst h2
      rfl
  | copy =>
    unfold fsOp at h
    dsimp only at h
    by_cases hp : p ∈ w.files
    · rw [if_pos hp] at h
      injection h with h1 h2
      cases h1
    · rw [if_neg hp] at h
      injection h with h1 h2
      subst h2
      rfl
  | compress =>
    unfold fsOp at h
    dsimp only at h
    exact compressPdf_error_files _ _ _ _ _ _ h

/-- A failing action step never removes or adds a file: every error exit
of `executeActionCore` returns the file set it started from. -/
theorem executeActionCore_error_files (a : Action) (p : Str) (dR : Bool) (md : Option Metadata)
    (cfg : Config) (now : DateParts) (w : World) (e : Str) (w' : World)
    (h : executeActionCore a p dR md cfg now w = (Except.error e, w')) : w'.files = w.files := by
  simp only [executeActionCore] at h
  rcases hmk : mkdirStep a.config.createDirs (dirnameL (resolveDestination a p cfg md now)) dR w
    with e0 | w1
  · rw [hmk] at h
    dsimp only at h
    injection h with h1 h2
    subst h2
    rfl
  · rw [hmk] at h
    dsimp only at h
    have hw1 := mkdirStep_ok_files _ _ _ _ _ hmk
    by_cases hdr : dR = true
    · rw [if_pos hdr] at h
      injection h with h1 h2
      cases h1
    · rw [if_neg hdr] at h
      rcases hfs : fsOp a.type a.config.compress p
          (resolveCollision w1.files (resolveDestination a p cfg md now) dR) w1 with ⟨res, w2⟩
      rw [hfs] at h
      cases res with
      | ok u =>
        injection h with h1 h2
        cases h1
      | error e2 =>
        injection h with h1 h2
        subst h2
        exact (fsOp_error_files _ _ _ _ _ _ _ hfs).trans hw1

/-- A failed `executeAction` leaves the file set unchanged. -/
theorem executeAction_failed_files (a : Action) (p : Str) (dR : Bool) (md : Option Metadata)
    (cfg : Config) (now : DateParts) (w : World)
    (h : (executeAction a p dR md cfg now w).1.status = ActionStatus.failed) :
    (executeAction a p dR md cfg now w).2.files = w.files := by
  rcases hc : executeActionCore a p dR md cfg now w with ⟨res, w2⟩
  unfold executeAction at h ⊢
  rw [hc] at h ⊢
  cases res with
  | ok dest => cases h
  | error e => exact executeActionCore_error_files a p dR md cfg now w e w2 hc

/-- Claim C1: `executeActions` returns exactly one result per action in
the declared order (the chain continues past failures rather than
aborting); each result records as its input path the destination of the
most recent successful action — the original source while none has
succeeded — so the current path advances only on success; and a failing
action leaves the file set untouched, so a file placed by an earlier
successful action is not reverted. -/
theorem c1_chain_semantics (actions : List Action) (src : Str) (dR : Bool)
    (md : Option Metadata) (cfg : Config) (now : DateParts) (w : World) :
    ((executeActions actions src dR md cfg now w).1.map (fun r => r.action) = actions)
    ∧ ((executeActions actions src dR md cfg now w).1.map (fun r => r.sourcePath) =
        (chainInputs src (executeActions actions src dR md cfg now w).1).map some)
    ∧ (∀ (a : Action) (p : Str) (w1 : World),
        (executeAction a p dR md cfg now w1).1.status = ActionStatus.failed →
        (executeAction a p dR md cfg now w1).2.files = w1.files) := by
  refine ⟨?_, ?_, fun a p w1 => executeAction_failed_files a p dR md cfg now w1⟩
  · induction actions generalizing src w with
    | nil => rfl
    | cons a rest ih =>
      simp only [executeActions, List.map_cons]
      rw [executeAction_action a src dR md cfg now w,
        ih (chainNext src (executeAction a src dR md cfg now w).1)
          (executeAction a src dR md cfg now w).2]
  · induction actions generalizing src w with
    | nil => rfl
    | cons a rest ih =>
      simp only [executeActions, List.map_cons, chainInputs]
      rw [executeAction_sourcePath a src dR md cfg now w,
        ih (chainNext src (executeAction a src dR md cfg now w).1)
          (executeAction a src dR md cfg now w).2]

/-- Witness for C1: a concrete two-action run (a move of a missing file,
then a compress) yields one result per action in order, records the
chained input paths, and the failing step preserves the file set. -/
theorem c1_chain_semantics_witness :
    ((executeActions [moveAct, compressAct] (s "/src/a.pdf") false none cfg0 now0 w0).1.map
        (fun r => r.action) = [moveAct, compressAct])
    ∧ ((executeAction moveAct (s "/missing.pdf") false none cfg0 now0 w0).1.status =
        ActionStatus.failed →
       (executeAction moveAct (s "/missing.pdf") false none cfg0 now0 w0).2.files = w0.files) :=
  ⟨(c1_chain_semantics [moveAct, compressAct] (s "/src/a.pdf") false none cfg0 now0 w0).1,
   fun h => (c1_chain_semantics [] (s "/src/a.pdf") false none cfg0 now0 w0).2.2
     moveAct (s "/missing.pdf") w0 h⟩

/-! ## Claim C9 -/

/-- Claim C9: `compressPdf` fails fast with a "source not found" error —
without spawning anything, the world is untouched — when the source file
does not exist; fails with a distinct spawn error naming Ghostscript
when the tool cannot be spawned; fails with an error embedding the
captured stderr on a non-zero exit; and, when the tool runs, succeeds
exactly when the process exits 0. -/
theorem c9_compress_adapter (src dst : Str) (q : Quality) (w : World) :
    (src ∉ w.files → compressPdf src dst q w = (Except.error (srcNotFoundMsg src), w))
    ∧ (src ∈ w.files → w.gs.available = false →
        (compressPdf src dst q w).1 = Except.error (spawnFailMsg w.gs.spawnErrMessage)
        ∧ containsL (spawnFailMsg w.gs.spawnErrMessage) (s "Ghostscript") = true)
    ∧ (src ∈ w.files → w.gs.available = true → w.gs.exitCode ≠ 0 →
        (compressPdf src dst q w).1 = Except.error (gsFailMsg w.gs.exitCode w.gs.errorOutput)
        ∧ containsL (gsFailMsg w.gs.exitCode w.gs.errorOutput) w.gs.errorOutput = true)
    ∧ (src ∈ w.files → w.gs.available = true →
        ((compressPdf src dst q w).1 = Except.ok () ↔ w.gs.exitCode = 0)) := by
  refine ⟨?_, ?_, ?_, ?_⟩
  · intro h
    simp [compressPdf, h]
  · intro h hav
    refine ⟨by simp [compressPdf, h, hav], ?_⟩
    unfold spawnFailMsg
    exact containsL_append _ _ _ (containsL_append _ _ _ (by decide))
  · intro h hav hexit
    refine ⟨by simp [compressPdf, h, hav, hexit], ?_⟩
    unfold gsFailMsg
    exact containsL_suffix _ _
  · intro h hav
    by_cases hexit : w.gs.exitCode = 0
    · simp [compressPdf, h, hav, hexit]
    · simp [compressPdf, h, hav, hexit]

/-- Witness for C9 at concrete worlds exercising all four outcomes. -/
theorem c9_compress_adapter_witness :
    compressPdf (s "/nope.pdf") (s "/out.pdf") Quality.medium w0 =
      (Except.error (srcNotFoundMsg (s "/nope.pdf")), w0)
    ∧ (compressPdf (s "/src/a.pdf") (s "/out.pdf") Quality.medium wNoGs).1 =
        Except.error (spawnFailMsg wNoGs.gs.spawnErrMessage)
    ∧ (compressPdf (s "/src/a.pdf") (s "/out.pdf") Quality.medium wGsFail).1 =
        Except.error (gsFailMsg wGsFail.gs.exitCode wGsFail.gs.errorOutput)
    ∧ ((compressPdf (s "/src/a.pdf") (s "/out.pdf") Quality.medium w0).1 = Except.ok () ↔
        w0.gs.exitCode = 0) :=
  ⟨(c9_compress_adapter (s "/nope.pdf") (s "/out.pdf") Quality.medium w0).1 (by decide),
   ((c9_compress_adapter (s "/src/a.pdf") (s "/out.pdf") Quality.medium wNoGs).2.1
      (by decide) rfl).1,
   ((c9_compress_adapter (s "/src/a.pdf") (s "/out.pdf") Quality.medium wGsFail).2.2.1
      (by decide) rfl (by decide)).1,
   (c9_compress_adapter (s "/src/a.pdf") (s "/out.pdf") Quality.medium w0).2.2.2
      (by decide) rfl⟩

/-! ### Decimal-rendering lemmas (injectivity of the collision counter) -/

/-- Inverse of `digitChar` on decimal digits. -/
def charToDigit (c : Char) : Nat :=
  match c with
  | '0' => 0 | '1' => 1 | '2' => 2 | '3' => 3 | '4' => 4
  | '5' => 5 | '6' => 6 | '7' => 7 | '8' => 8 | '9' => 9
  | _ => 0

/-- Left fold reading a digit string back as a number. -/
def charsToNat (x : Str) : Nat := x.foldl (fun acc c => acc * 10 + charToDigit c) 0

theorem charToDigit_digitChar {d : Nat} (h : d < 10) : charToDigit (digitChar d) = d := by
  interval_cases d <;> rfl

theorem digitChar_ne_slash (d : Nat) : digitChar d ≠ '/' := by
  unfold digitChar
  split <;> decide

theorem charsToNat_snoc (xs : Str) (c : Char) :
    charsToNat (xs ++ [c]) = charsToNat xs * 10 + charToDigit c := by
  unfold charsToNat
  rw [List.foldl_append]
  rfl

theorem charsToNat_natToCharsAux :
    ∀ (fuel n : Nat), n < 10 ^ fuel → charsToNat (natToCharsAux fuel n) = n := by
  intro fuel
  induction fuel with
  | zero =>
    intro n h
    interval_cases n
    rfl
  | succ fuel ih =>
    intro n h
    by_cases hn : n = 0
    · subst hn
      rfl
    · have hdiv : n / 10 < 10 ^ fuel := by
        rw [Nat.div_lt_iff_lt_mul (by norm_num)]
        calc n < 10 ^ (fuel + 1) := h
        _ = 10 ^ fuel * 10 := by rw [pow_succ]
      have : natToCharsAux (fuel + 1) n = natToCharsAux fuel (n / 10) ++ [digitChar (n % 10)] := by
        simp only [natToCharsAux]
        rw [if_neg hn]
      rw [this, charsToNat_snoc, ih (n / 10) hdiv, charToDigit_digitChar (Nat.mod_lt n (by norm_num))]
      omega

theorem charsToNat_natToChars (n : Nat) : charsToNat (natToChars n) = n := by
  by_cases hn : n = 0
  · subst hn
    rfl
  · unfold natToChars
    rw [if_neg hn]
    exact charsToNat_natToCharsAux (n + 1) n
      (lt_of_lt_of_le (Nat.lt_pow_self (by norm_num) n) (Nat.pow_le_pow_right (by norm_num) (Nat.le_succ n)))

theorem natToChars_injective {m n : Nat} (h : natToChars m = natToChars n) : m = n := by
  have := congrArg charsToNat h
  rwa [charsToNat_natToChars, charsToNat_natToChars] at this

theorem mem_natToCharsAux_ne_slash :
    ∀ (fuel n : Nat) (c : Char), c ∈ natToCharsAux fuel n → c ≠ '/' := by
  intro fuel
  induction fuel with
  | zero =>
    intro n c hc
    cases hc
  | succ fuel ih =>
    intro n c hc
    unfold natToCharsAux at hc
    by_cases hn : n = 0
    · rw [if_pos hn] at hc
      cases hc
    · rw [if_neg hn] at hc
      rcases List.mem_append.mp hc with h1 | h1
      · exact ih (n / 10) c h1
      · rcases List.mem_singleton.mp h1 with rfl
        exact digitChar_ne_slash _

theorem mem_natToChars_ne_slash (n : Nat) (c : Char) (hc : c ∈ natToChars n) : c ≠ '/' := by
  unfold natToChars at hc
  by_cases hn : n = 0
  · rw [if_pos hn] at hc
    rcases List.mem_singleton.mp hc with rfl
    decide
  · rw [if_neg hn] at hc
    exact mem_natToCharsAux_ne_slash (n + 1) n c hc

theorem natToChars_ne_nil (n : Nat) : natToChars n ≠ [] := by
  unfold natToChars
  by_cases hn : n = 0
  · rw [if_pos hn]
    decide
  · rw [if_neg hn]
    unfold natToCharsAux
    rw [if_neg hn]
    simp

/-! ### Path-structure lemmas -/

theorem mem_takeWhileL {p : Char → Bool} : ∀ {l : Str} {c : Char}, c ∈ l.takeWhile p → p c = true := by
  intro l
  induction l with
  | nil => intro c hc; cases hc
  | cons x xs ih =>
    intro c hc
    rw [List.takeWhile_cons] at hc
    by_cases hp : p x
    · rw [if_pos hp] at hc
      rcases List.mem_cons.mp hc with rfl | h2
      · exact hp
      · exact ih h2
    · rw [if_neg hp] at hc
      cases hc

theorem takeWhileL_all {p : Char → Bool} : ∀ {l : Str}, (∀ c ∈ l, p c = true) → l.takeWhile p = l := by
  intro l
  induction l with
  | nil => intro _; rfl
  | cons x xs ih =>
    intro h
    rw [List.takeWhile_cons, if_pos (h x (List.mem_cons_self x xs))]
    rw [ih (fun c hc => h c (List.mem_cons_of_mem x hc))]

theorem takeWhileL_append_stop {p : Char → Bool} {y : Char} (hy : p y = false) :
    ∀ (xs ys : Str), (∀ c ∈ xs, p c = true) → (xs ++ y :: ys).takeWhile p = xs := by
  intro xs
  induction xs with
  | nil =>
    intro ys _
    rw [List.nil_append, List.takeWhile_cons, hy]
    rfl
  | cons x l ih =>
    intro ys h
    rw [List.cons_append, List.takeWhile_cons, if_pos (h x (List.mem_cons_self x l))]
    rw [ih ys (fun c hc => h c (List.mem_cons_of_mem x hc))]

theorem mem_afterLastSlash_ne_slash {b : Str} {c : Char} (hc : c ∈ afterLastSlash b) : c ≠ '/' := by
  unfold afterLastSlash at hc
  have h1 := List.mem_reverse.mp hc
  have h2 := mem_takeWhileL h1
  exact of_decide_eq_true h2

theorem afterLastSlash_no_slash {b : Str} (h : '/' ∉ b) : afterLastSlash b = b := by
  unfold afterLastSlash
  rw [takeWhileL_all, List.reverse_reverse]
  intro c hc
  apply decide_eq_true
  intro hcc
  subst hcc
  exact h (List.mem_reverse.mp hc)

theorem afterLastSlash_append {a b : Str} (h : '/' ∉ b) : afterLastSlash (a ++ '/' :: b) = b := by
  unfold afterLastSlash
  have hrev : (a ++ '/' :: b).reverse = b.reverse ++ '/' :: a.reverse := by
    rw [List.reverse_append, List.reverse_cons, List.append_assoc]
    rfl
  have hstop := takeWhileL_append_stop (p := fun c => decide (c ≠ '/')) (y := '/') (by decide)
    b.reverse a.reverse
    (fun c hc => decide_eq_true (fun hcc => h (hcc ▸ List.mem_reverse.mp hc)))
  rw [hrev, hstop, List.reverse_reverse]

theorem stripTrailingSlashes_id {p : Str} (h : p.getLast? ≠ some '/') :
    stripTrailingSlashes p = p := by
  unfold stripTrailingSlashes
  rw [← List.head?_reverse] at h
  cases hp : p.reverse with
  | nil =>
    have : p = [] := by
      have := congrArg List.reverse hp
      rwa [List.reverse_reverse] at this
    subst this
    rfl
  | cons c r =>
    rw [hp] at h
    have hc : ¬ (c = '/') := by
      intro hcc
      subst hcc
      exact h rfl
    rw [List.dropWhile_cons]
    rw [if_neg (by simpa using hc)]
    have h2 := congrArg List.reverse hp
    rw [List.reverse_reverse] at h2
    exact h2.symm

theorem getLast?_ne_slash {seg : Str} (hne : seg ≠ []) (hsl : '/' ∉ seg) :
    seg.getLast? ≠ some '/' := by
  intro h
  rcases List.mem_getLast?_eq_getLast h with ⟨hh, heq⟩
  exact hsl (heq ▸ List.getLast_mem hh)

theorem basenameL_no_slash {seg : Str} (hne : seg ≠ []) (hsl : '/' ∉ seg) :
    basenameL seg = seg := by
  unfold basenameL
  rw [stripTrailingSlashes_id (getLast?_ne_slash hne hsl), afterLastSlash_no_slash hsl]

theorem splitSlash_ne_nil : ∀ (x : Str), splitSlash x ≠ [] := by
  intro x
  induction x with
  | nil => simp [splitSlash]
  | cons c rest ih =>
    unfold splitSlash
    by_cases hc : c = '/'
    · rw [if_pos hc]
      simp
    · rw [if_neg hc]
      cases h : splitSlash rest with
      | nil => exact absurd h ih
      | cons g gs => simp

theorem splitSlash_no_slash : ∀ {x : Str}, '/' ∉ x → splitSlash x = [x] := by
  intro x
  induction x with
  | nil => intro _; rfl
  | cons c rest ih =>
    intro h
    have hc : ¬ (c = '/') := fun hcc => h (hcc ▸ List.mem_cons_self c rest)
    have hrest : '/' ∉ rest := fun hr => h (List.mem_cons_of_mem c hr)
    unfold splitSlash
    rw [if_neg hc, ih hrest]

theorem splitSlash_cons_slash (b : Str) : splitSlash ('/' :: b) = [] :: splitSlash b := by
  simp [splitSlash]

theorem splitSlash_cons_other {c : Char} (hc : ¬ c = '/') (b : Str) :
    splitSlash (c :: b) =
      match splitSlash b with
      | g :: gs => (c :: g) :: gs
      | [] => [[c]] := by
  simp only [splitSlash]
  rw [if_neg hc]

theorem splitSlash_append : ∀ (a b : Str),
    splitSlash (a ++ '/' :: b) = splitSlash a ++ splitSlash b := by
  intro a b
  induction a with
  | nil =>
    rw [List.nil_append, splitSlash_cons_slash]
    rfl
  | cons c a ih =>
    rw [List.cons_append]
    by_cases hc : c = '/'
    · subst hc
      rw [splitSlash_cons_slash, splitSlash_cons_slash, ih]
      rfl
    · rw [splitSlash_cons_other hc, splitSlash_cons_other hc, ih]
      cases h : splitSlash a with
      | nil => exact absurd h (splitSlash_ne_nil a)
      | cons g gs =>
        rfl

theorem joinSegs_snoc : ∀ (xs : List Str) (seg : Str),
    joinSegs (xs ++ [seg]) = if xs = [] then seg else joinSegs xs ++ '/' :: seg := by
  intro xs
  induction xs with
  | nil => intro seg; rfl
  | cons x l ih =>
    intro seg
    rw [if_neg (by simp)]
    cases l with
    | nil => rfl
    | cons y ys =>
      show joinSegs (x :: ((y :: ys) ++ [seg])) = joinSegs (x :: y :: ys) ++ '/' :: seg
      rw [List.cons_append]
      show x ++ '/' :: joinSegs ((y :: ys) ++ [seg]) = (x ++ '/' :: joinSegs (y :: ys)) ++ '/' :: seg
      rw [ih seg, if_neg (by simp), List.append_assoc]
      rfl

theorem stepSeg_normal (au : Bool) (st : List Str) {seg : Str} (h : NormalSeg seg) :
    stepSeg au st seg = seg :: st := by
  obtain ⟨h1, h2, h3, _⟩ := h
  unfold stepSeg
  rw [if_neg (by simp [h1, h2]), if_neg h3]

/-- Normalizing a plain segment alone returns it unchanged. -/
theorem normalizeL_single {seg : Str} (h : NormalSeg seg) : normalizeL seg = seg := by
  obtain ⟨h1, h2, h3, h4⟩ := h
  have habs : isAbs seg = false := by
    unfold isAbs
    cases seg with
    | nil => exact absurd rfl h1
    | cons c r =>
      have hcn : ¬ (c = '/') := fun hcc => h4 (hcc ▸ List.mem_cons_self c r)
      simp [hcn]
  have htrail : seg.getLast? ≠ some '/' := getLast?_ne_slash h1 h4
  unfold normalizeL
  rw [if_neg h1]
  simp only [habs, splitSlash_no_slash h4, List.foldl_cons, List.foldl_nil,
    stepSeg_normal _ _ ⟨h1, h2, h3, h4⟩]
  simp [joinSegs, h1, htrail]

/-- The basename of `A ++ "/" ++ seg` is `seg` for a plain segment. -/
theorem basenameL_slash_seg (A : Str) {seg : Str} (h1 : seg ≠ []) (h4 : '/' ∉ seg) :
    basenameL (A ++ '/' :: seg) = seg := by
  unfold basenameL
  have hlast : (A ++ '/' :: seg).getLast? = seg.getLast? := by
    rw [List.getLast?_append_of_ne_nil A (by simp),
      show ('/' :: seg) = ['/'] ++ seg from rfl, List.getLast?_append_of_ne_nil ['/'] h1]
  rw [stripTrailingSlashes_id (by rw [hlast]; exact getLast?_ne_slash h1 h4)]
  exact afterLastSlash_append h4

/-- Normalizing `d ++ "/" ++ seg` for a plain segment yields either
`seg` itself or some prefix followed by `"/" ++ seg`: the segment always
survives as the final path component. -/
theorem normalizeL_append_seg (d : Str) (hd : d ≠ []) {seg : Str} (h : NormalSeg seg) :
    normalizeL (d ++ '/' :: seg) = seg
    ∨ ∃ A : Str, normalizeL (d ++ '/' :: seg) = A ++ '/' :: seg := by
  obtain ⟨h1, h2, h3, h4⟩ := h
  have hne : d ++ '/' :: seg ≠ [] := by simp
  have htrail0 : (d ++ '/' :: seg).getLast? ≠ some '/' := by
    rw [List.getLast?_append_of_ne_nil d (by simp),
      show ('/' :: seg) = ['/'] ++ seg from rfl, List.getLast?_append_of_ne_nil ['/'] h1]
    exact getLast?_ne_slash h1 h4
  have htrail1 : ('/' :: seg).getLast? ≠ some '/' := by
    rw [show ('/' :: seg) = ['/'] ++ seg from rfl, List.getLast?_append_of_ne_nil ['/'] h1]
    exact getLast?_ne_slash h1 h4
  have htrail2 : seg.getLast? ≠ some '/' := getLast?_ne_slash h1 h4
  have hsplit : splitSlash (d ++ '/' :: seg) = splitSlash d ++ [seg] := by
    rw [splitSlash_append, splitSlash_no_slash h4]
  unfold normalizeL
  rw [if_neg hne]
  simp only [hsplit, List.foldl_append, List.foldl_cons, List.foldl_nil,
    stepSeg_normal _ _ ⟨h1, h2, h3, h4⟩, List.reverse_cons, joinSegs_snoc]
  cases hS : (List.foldl (stepSeg (¬ isAbs (d ++ '/' :: seg) = true)) [] (splitSlash d)).reverse with
  | nil =>
    cases habs : isAbs (d ++ '/' :: seg) with
    | false =>
      left
      simp [h1, htrail0, htrail1, htrail2]
    | true =>
      right
      exact ⟨[], by simp [h1, htrail0, htrail1, htrail2]⟩
  | cons x xs =>
    have hres : joinSegs (x :: xs) ++ '/' :: seg ≠ [] := by simp
    cases habs : isAbs (d ++ '/' :: seg) with
    | false =>
      right
      exact ⟨joinSegs (x :: xs), by simp [hres, htrail0, htrail1, htrail2]⟩
    | true =>
      right
      exact ⟨'/' :: joinSegs (x :: xs), by simp [hres, htrail0, htrail1, htrail2]⟩

/-- The file-name component of `path.join(d, seg)` is `seg` for any
plain segment `seg`. -/
theorem basenameL_pathJoin (d : Str) {seg : Str} (h : NormalSeg seg) :
    basenameL (pathJoin d seg) = seg := by
  obtain ⟨h1, h2, h3, h4⟩ := h
  by_cases hd : d = []
  · subst hd
    have hpj : pathJoin [] seg = normalizeL seg := by
      unfold pathJoin
      rw [if_neg (by simp [h1])]
      simp
    rw [hpj, normalizeL_single ⟨h1, h2, h3, h4⟩]
    exact basenameL_no_slash h1 h4
  · have hpj : pathJoin d seg = normalizeL (d ++ '/' :: seg) := by
      unfold pathJoin
      rw [if_neg (by simp [hd]), if_neg hd, if_neg h1]
    rw [hpj]
    rcases normalizeL_append_seg d hd ⟨h1, h2, h3, h4⟩ with heq | ⟨A, heq⟩
    · rw [heq]
      exact basenameL_no_slash h1 h4
    · rw [heq]
      exact basenameL_slash_seg A h1 h4

/-! ### Collision-resolution lemmas -/

theorem extnameL_no_slash (p : Str) : '/' ∉ extnameL p := by
  intro h
  have hb : '/' ∉ afterLastSlash (stripTrailingSlashes p) :=
    fun hh => (mem_afterLastSlash_ne_slash hh) rfl
  simp only [extnameL] at h
  split at h
  · cases h
  · split at h
    · cases h
    · cases h
    · exact hb (List.drop_subset _ _ h)

theorem basenameExtL_no_slash (p ext : Str) : '/' ∉ basenameExtL p ext := by
  intro h
  have hb : '/' ∉ basenameL p := fun hh => (mem_afterLastSlash_ne_slash hh) rfl
  simp only [basenameExtL] at h
  split at h
  · exact hb (List.take_subset _ _ h)
  · exact hb h

/-- The probed file name `base-n.ext` is a plain path segment. -/
theorem collisionSeg_normal {base ext : Str} (hbase : '/' ∉ base) (hext : '/' ∉ ext) (n : Nat) :
    NormalSeg (base ++ '-' :: (natToChars n ++ ext)) := by
  refine ⟨by simp, ?_, ?_, ?_⟩
  · intro heq
    have hmem : '-' ∈ s "." :=
      heq ▸ (List.mem_append.mpr (Or.inr (List.mem_cons_self _ _)))
    revert hmem
    decide
  · intro heq
    have hmem : '-' ∈ s ".." :=
      heq ▸ (List.mem_append.mpr (Or.inr (List.mem_cons_self _ _)))
    revert hmem
    decide
  · intro hsl
    rcases List.mem_append.mp hsl with h | h
    · exact hbase h
    · rcases List.mem_cons.mp h with h | h
      · exact absurd h (by decide)
      · rcases List.mem_append.mp h with h | h
        · exact (mem_natToChars_ne_slash n '/' h) rfl
        · exact hext h

/-- Distinct collision counters produce distinct candidate paths. -/
theorem collisionCand_injective (dir : Str) {base ext : Str}
    (hbase : '/' ∉ base) (hext : '/' ∉ ext)
    {m n : Nat} (h : collisionCand dir base ext m = collisionCand dir base ext n) : m = n := by
  unfold collisionCand at h
  have hm := basenameL_pathJoin dir (collisionSeg_normal hbase hext m)
  have hn := basenameL_pathJoin dir (collisionSeg_normal hbase hext n)
  have hseg : base ++ '-' :: (natToChars m ++ ext) = base ++ '-' :: (natToChars n ++ ext) := by
    rw [← hm, ← hn, h]
  have h2 := List.append_cancel_left hseg
  injection h2 with _ h3
  exact natToChars_injective (List.append_cancel_right h3)

/-- Finitely many files cannot occupy every candidate: some counter in
`1 .. files.length + 1` is free. -/
theorem exists_free_cand (files : List Str) (dir : Str) {base ext : Str}
    (hbase : '/' ∉ base) (hext : '/' ∉ ext) :
    ∃ j, j ≤ files.length ∧ collisionCand dir base ext (1 + j) ∉ files := by
  by_contra hcon
  push_neg at hcon
  have hinj : Function.Injective (fun j : Nat => collisionCand dir base ext (1 + j)) := by
    intro a b hab
    have := collisionCand_injective dir hbase hext hab
    omega
  have hsub : (Finset.range (files.length + 1)).image
      (fun j => collisionCand dir base ext (1 + j)) ⊆ files.toFinset := by
    intro x hx
    rcases Finset.mem_image.mp hx with ⟨j, hj, rfl⟩
    rw [List.mem_toFinset]
    exact hcon j (Nat.lt_succ_iff.mp (Finset.mem_range.mp hj))
  have hcard := Finset.card_le_card hsub
  rw [Finset.card_image_of_injective _ hinj, Finset.card_range] at hcard
  have := files.toFinset_card_le
  omega

/-- The probe loop returns the first free candidate at or after the
starting counter, provided one is in reach of the fuel. -/
theorem collisionLoop_spec (files : List Str) (dir base ext : Str) :
    ∀ (fuel counter : Nat),
    (∃ j, j < fuel ∧ collisionCand dir base ext (counter + j) ∉ files) →
    ∃ j, collisionLoop files dir base ext fuel counter = collisionCand dir base ext (counter + j)
      ∧ collisionCand dir base ext (counter + j) ∉ files
      ∧ ∀ i, i < j → collisionCand dir base ext (counter + i) ∈ files := by
  intro fuel
  induction fuel with
  | zero =>
    rintro counter ⟨j, hj, _⟩
    omega
  | succ fuel ih =>
    rintro counter ⟨j, hj, hfree⟩
    by_cases hmem : collisionCand dir base ext counter ∈ files
    · have hj2 : ∃ j', j' < fuel ∧ collisionCand dir base ext (counter + 1 + j') ∉ files := by
        rcases Nat.eq_zero_or_pos j with rfl | hpos
        · rw [Nat.add_zero] at hfree
          exact absurd hmem hfree
        · refine ⟨j - 1, by omega, ?_⟩
          have harith : counter + 1 + (j - 1) = counter + j := by omega
          rw [harith]
          exact hfree
      rcases ih (counter + 1) hj2 with ⟨j', heq, hf, hmin⟩
      have hloop : collisionLoop files dir base ext (fuel + 1) counter =
          collisionLoop files dir base ext fuel (counter + 1) := by
        simp only [collisionLoop]
        rw [if_pos hmem]
      refine ⟨j' + 1, ?_, ?_, ?_⟩
      · rw [hloop, heq]
        have harith : counter + 1 + j' = counter + (j' + 1) := by omega
        rw [harith]
      · have harith : counter + (j' + 1) = counter + 1 + j' := by omega
        rw [harith]
        exact hf
      · intro i hi
        cases i with
        | zero => simpa using hmem
        | succ i' =>
          have harith : counter + (i' + 1) = counter + 1 + i' := by omega
          rw [harith]
          exact hmin i' (by omega)
    · refine ⟨0, ?_, ?_, ?_⟩
      · simp only [collisionLoop]
        rw [if_neg hmem, Nat.add_zero]
      · rw [Nat.add_zero]
        exact hmem
      · intro i hi
        omega

/-! ## Claim C3 -/

/-- Claim C3: `resolveCollision` returns the path unchanged when no file
exists there; otherwise it returns the first `base-n.ext` (numeric
suffix before the extension, counted up from 1) not occupied by a file;
in dry-run mode the candidate is returned directly; re-resolving a
resolved path without creating a file changes nothing; and concretely,
with `a.pdf` present resolving `a.pdf` yields `a-1.pdf`, and with both
`a.pdf` and `a-1.pdf` present it yields `a-2.pdf`. -/
theorem c3_resolveCollision (files : List Str) (p : Str) :
    (resolveCollision files p true = p)
    ∧ (p ∉ files → resolveCollision files p false = p)
    ∧ (p ∈ files → ∃ n, 1 ≤ n
        ∧ resolveCollision files p false =
            collisionCand (dirnameL p) (basenameExtL p (extnameL p)) (extnameL p) n
        ∧ collisionCand (dirnameL p) (basenameExtL p (extnameL p)) (extnameL p) n ∉ files
        ∧ ∀ m, 1 ≤ m → m < n →
            collisionCand (dirnameL p) (basenameExtL p (extnameL p)) (extnameL p) m ∈ files)
    ∧ (resolveCollision files (resolveCollision files p false) false =
        resolveCollision files p false)
    ∧ (resolveCollision [s "a.pdf"] (s "a.pdf") false = s "a-1.pdf")
    ∧ (resolveCollision [s "a.pdf", s "a-1.pdf"] (s "a.pdf") false = s "a-2.pdf") := by
  have hmain : p ∈ files → ∃ n, 1 ≤ n
      ∧ resolveCollision files p false =
          collisionCand (dirnameL p) (basenameExtL p (extnameL p)) (extnameL p) n
      ∧ collisionCand (dirnameL p) (basenameExtL p (extnameL p)) (extnameL p) n ∉ files
      ∧ ∀ m, 1 ≤ m → m < n →
          collisionCand (dirnameL p) (basenameExtL p (extnameL p)) (extnameL p) m ∈ files := by
    intro hmem
    have hext : '/' ∉ extnameL p := extnameL_no_slash p
    have hbase : '/' ∉ basenameExtL p (extnameL p) := basenameExtL_no_slash p _
    rcases exists_free_cand files (dirnameL p) hbase hext with ⟨j, hjle, hjfree⟩
    have hfuel : ∃ j0, j0 < files.length + 1 ∧
        collisionCand (dirnameL p) (basenameExtL p (extnameL p)) (extnameL p) (1 + j0) ∉ files :=
      ⟨j, by omega, hjfree⟩
    rcases collisionLoop_spec files (dirnameL p) (basenameExtL p (extnameL p)) (extnameL p)
        (files.length + 1) 1 hfuel with ⟨j', heq, hf, hmin⟩
    refine ⟨1 + j', by omega, ?_, hf, ?_⟩
    · simp only [resolveCollision]
      rw [if_neg (by simp), if_pos hmem]
      exact heq
    · intro m hm1 hmn
      have harith : m = 1 + (m - 1) := by omega
      rw [harith]
      exact hmin (m - 1) (by omega)
  refine ⟨rfl, ?_, hmain, ?_, by decide, by decide⟩
  · intro h
    simp [resolveCollision, h]
  · by_cases hpm : p ∈ files
    · rcases hmain hpm with ⟨n, _, heq, hfree, _⟩
      rw [heq]
      simp [resolveCollision, hfree]
    · have h2 : resolveCollision files p false = p := by simp [resolveCollision, hpm]
      rw [h2, h2]

/-- Witness for C3: the first free suffix is found at a concrete
colliding path, and a non-colliding path is returned unchanged. -/
theorem c3_resolveCollision_witness :
    resolveCollision [] (s "b.pdf") false = s "b.pdf"
    ∧ (∃ n, 1 ≤ n
        ∧ resolveCollision [s "a.pdf"] (s "a.pdf") false =
            collisionCand (dirnameL (s "a.pdf"))
              (basenameExtL (s "a.pdf") (extnameL (s "a.pdf"))) (extnameL (s "a.pdf")) n
        ∧ collisionCand (dirnameL (s "a.pdf"))
              (basenameExtL (s "a.pdf") (extnameL (s "a.pdf"))) (extnameL (s "a.pdf")) n ∉
            [s "a.pdf"]
        ∧ ∀ m, 1 ≤ m → m < n →
            collisionCand (dirnameL (s "a.pdf"))
              (basenameExtL (s "a.pdf") (extnameL (s "a.pdf"))) (extnameL (s "a.pdf")) m ∈
            [s "a.pdf"]) :=
  ⟨(c3_resolveCollision [] (s "b.pdf")).2.1 (by decide),
   (c3_resolveCollision [s "a.pdf"] (s "a.pdf")).2.2.1 (by decide)⟩

/-! ## Claim C7 -/

theorem endsWithL_append (r ext : Str) : endsWithL (r ++ ext) ext = true := by
  unfold endsWithL
  apply decide_eq_true
  rw [List.reverse_append]
  rw [show ext.length = ext.reverse.length from (List.length_reverse ext).symm]
  exact List.take_left ext.reverse r.reverse

/-- The expanded pattern name always ends with the source extension:
either it already did, or the extension is appended. -/
theorem patternFileName_endsWith (pattern src : Str) (now : DateParts) :
    endsWithL (patternFileName pattern src now) (extnameL src) = true := by
  simp only [patternFileName]
  split
  next h => exact h
  next h => exact endsWithL_append _ _

/-- Claim C7: a configured rename pattern always replaces the file-name
component — the result is the expanded pattern joined onto the
destination's directory portion, so the final path's basename is exactly
the expanded pattern — and the source extension is appended whenever the
expansion does not already end with it; concretely,
`{filename}_{YYYY}-{MM}-{DD}` applied to `report.pdf` on 2026-02-01
produces the file name `report_2026-02-01.pdf`. -/
theorem c7_applyPattern (dest pattern src : Str) (md : Option Metadata) (now : DateParts)
    (h : NormalSeg (patternFileName pattern src now)) :
    basenameL (applyPattern dest pattern src md now) = patternFileName pattern src now
    ∧ endsWithL (patternFileName pattern src now) (extnameL src) = true
    ∧ basenameL (applyPattern (s "/dest/Docs") (s "{filename}_{YYYY}-{MM}-{DD}")
        (s "report.pdf") none ⟨2026, 1, 1, 0, 0, 0⟩) = s "report_2026-02-01.pdf" := by
  refine ⟨?_, patternFileName_endsWith pattern src now, by decide⟩
  simp only [applyPattern]
  exact basenameL_pathJoin _ h

/-- Witness for C7 at a concrete pattern, source and date. -/
theorem c7_applyPattern_witness :
    basenameL (applyPattern (s "/x") (s "{filename}_{YYYY}-{MM}-{DD}") (s "report.pdf") none
        now0) =
      patternFileName (s "{filename}_{YYYY}-{MM}-{DD}") (s "report.pdf") now0 :=
  (c7_applyPattern (s "/x") (s "{filename}_{YYYY}-{MM}-{DD}") (s "report.pdf") none now0
    ⟨by decide, by decide, by decide, by decide⟩).1

/-! ## Claim C10 -/

/-- Claim C10: a condition whose declared type `size` has no evaluation
case falls into `evaluateCondition`'s `default` branch and returns
`false` — and the declared operators `greater_than`/`less_than` fall
into `matchValue`'s `default` branch and return `false` — so a rule
containing a `size` condition matches no file path and is never
selected. -/
theorem c10_unhandled_cases (env : CondEnv) (c : Condition) (filePath : Str) :
    (c.type = CondType.size → evaluateCondition env c filePath = false)
    ∧ ((c.operator = CondOperator.greater_than ∨ c.operator = CondOperator.less_than) →
        ∀ v, matchValue env v c = false)
    ∧ (∀ (rules : List Rule) (R : Rule), c ∈ R.conditions → c.type = CondType.size →
        R ∉ findMatchingRules env rules filePath) := by
  obtain ⟨t, op, v⟩ := c
  refine ⟨?_, ?_, ?_⟩
  · rintro rfl
    rfl
  · rintro (rfl | rfl) val <;> rfl
  · rintro rules R hc rfl hmem
    have h1 : evaluateConditions env R.conditions filePath = true :=
      (List.mem_filter.mp hmem).2
    have h2 := (List.all_eq_true.mp h1) _ hc
    have h3 : evaluateCondition env ⟨CondType.size, op, v⟩ filePath = false := rfl
    rw [h3] at h2
    cases h2

/-- Witness for C10 at a concrete condition, operator and rule. -/
theorem c10_unhandled_cases_witness :
    evaluateCondition env0 sizeCond (s "x.pdf") = false
    ∧ matchValue env0 (s "x")
        ⟨CondType.extension, CondOperator.greater_than, CondValue.vNum 5⟩ = false
    ∧ ruleSize ∉ findMatchingRules env0 [ruleSize] (s "x.pdf") :=
  ⟨(c10_unhandled_cases env0 sizeCond (s "x.pdf")).1 rfl,
   (c10_unhandled_cases env0
      ⟨CondType.extension, CondOperator.greater_than, CondValue.vNum 5⟩ (s "x.pdf")).2.1
      (Or.inl rfl) (s "x"),
   (c10_unhandled_cases env0 sizeCond (s "x.pdf")).2.2 [ruleSize] ruleSize (by decide) rfl⟩

/-! ## Claim C5 -/

/-- Claim C5: the rules returned by `findMatchingRules` are ordered by
descending numeric priority; rules of equal priority keep their
original relative order (the in-place sort is stable); and matching
rules with priorities `[100, 500, 300]` come back ordered
`[500, 300, 100]`. -/
theorem c5_priority_order (env : CondEnv) (rules : List Rule) (filePath : Str) :
    (findMatchingRules env rules filePath).Pairwise (fun a b => b.priority ≤ a.priority)
    ∧ (∀ pr : Int,
        (findMatchingRules env rules filePath).filter (fun x => decide (x.priority = pr)) =
          rules.filter (fun x =>
            decide (x.priority = pr) && evaluateConditions env x.conditions filePath))
    ∧ (∀ f2 : Str, (findMatchingRules env
          [rulePri (s "p1") 100, rulePri (s "p2") 500, rulePri (s "p3") 300] f2).map
          (fun r => r.priority) = [500, 300, 100]) := by
  refine ⟨?_, ?_, ?_⟩
  · unfold findMatchingRules
    have hs : (sortRulesByPriority rules).Pairwise (fun a b => b.priority ≤ a.priority) := by
      unfold sortRulesByPriority
      exact List.sorted_insertionSort (fun a b => b.priority ≤ a.priority) rules
    exact List.Sorted.filter (fun rule => evaluateConditions env rule.conditions filePath) hs
  · intro pr
    unfold findMatchingRules sortRulesByPriority
    rw [List.filter_filter]
    exact filter_insertionSort
      (fun x y hx hy => by
        have hx2 : x.priority = pr := of_decide_eq_true (And.left (Bool.and_eq_true _ _ ▸ hx))
        have hy2 : y.priority = pr := of_decide_eq_true (And.left (Bool.and_eq_true _ _ ▸ hy))
        rw [hx2, hy2]) rules
  · intro f2
    rfl

/-! ## Claim C4 -/

/-- Claim C4: `findMatchingRules` returns a rule iff it is one of the
input rules and every one of its conditions individually matches the
file (logical AND over the conditions); a rule with an empty condition
list always matches; and for the name-based condition types the stored
comparison value is matched case-insensitively (lower-casing it does not
change the verdict). -/
theorem c4_select_iff (env : CondEnv) (rules : List Rule) (filePath : Str) (R : Rule) :
    (R ∈ findMatchingRules env rules filePath ↔
      R ∈ rules ∧ evaluateConditions env R.conditions filePath = true)
    ∧ (evaluateConditions env R.conditions filePath = true ↔
        ∀ c ∈ R.conditions, evaluateCondition env c filePath = true)
    ∧ (evaluateConditions env [] filePath = true)
    ∧ (∀ (t : CondType) (op : CondOperator) (v : Str),
        (t = CondType.name_contains ∨ t = CondType.name_starts_with ∨
          t = CondType.name_ends_with) →
        evaluateCondition env ⟨t, op, CondValue.vStr (toLowerL v)⟩ filePath =
          evaluateCondition env ⟨t, op, CondValue.vStr v⟩ filePath) := by
  refine ⟨?_, ?_, rfl, ?_⟩
  · unfold findMatchingRules
    rw [List.mem_filter]
    have hperm : (sortRulesByPriority rules).Perm rules := by
      unfold sortRulesByPriority
      exact List.perm_insertionSort _ rules
    rw [hperm.mem_iff]
  · unfold evaluateConditions
    exact List.all_eq_true
  · rintro t op v (rfl | rfl | rfl) <;>
      simp [evaluateCondition, valueToString, toLowerL_idem]

/-- Witness for C4 at a concrete rule set and file. -/
theorem c4_select_iff_witness :
    (rulePri (s "p1") 7 ∈ findMatchingRules env0 [rulePri (s "p1") 7] (s "x.pdf") ↔
      rulePri (s "p1") 7 ∈ [rulePri (s "p1") 7] ∧
        evaluateConditions env0 (rulePri (s "p1") 7).conditions (s "x.pdf") = true)
    ∧ evaluateCondition env0
        ⟨CondType.name_contains, CondOperator.equals, CondValue.vStr (toLowerL (s "X"))⟩
        (s "x.pdf") =
      evaluateCondition env0
        ⟨CondType.name_contains, CondOperator.equals, CondValue.vStr (s "X")⟩ (s "x.pdf") :=
  ⟨(c4_select_iff env0 [rulePri (s "p1") 7] (s "x.pdf") (rulePri (s "p1") 7)).1,
   (c4_select_iff env0 [] (s "x.pdf") (rulePri (s "p1") 7)).2.2.2
     CondType.name_contains CondOperator.equals (s "X") (Or.inl rfl)⟩

/-! ## Claim C8 -/

/-- Claim C8 counterexample: `rules.sort(...)` sorts the caller's array
in place, so after `findMatchingRules` returns, an input list that was
not already in descending-priority order has been reordered — here
`[priority 100, priority 500]` has become `[priority 500, priority
100]`. -/
theorem c8_counterexample :
    findMatchingRulesPost [rulePri (s "a") 100, rulePri (s "b") 500] ≠
      [rulePri (s "a") 100, rulePri (s "b") 500]
    ∧ findMatchingRulesPost [rulePri (s "a") 100, rulePri (s "b") 500] =
      [rulePri (s "b") 500, rulePri (s "a") 100] := by
  constructor <;> decide

/-- Claim C8 (amended): the rule-selection function adds, removes and
mutates no rule — the post-call list is a permutation of the input
holding exactly the same rule objects — but the in-place sort does
reorder the caller's list by descending priority. -/
theorem c8_amended (rules : List Rule) :
    (findMatchingRulesPost rules).Perm rules
    ∧ ∀ R, R ∈ findMatchingRulesPost rules ↔ R ∈ rules := by
  have h : (findMatchingRulesPost rules).Perm rules := by
    unfold findMatchingRulesPost sortRulesByPriority
    exact List.perm_insertionSort _ rules
  exact ⟨h, fun R => h.mem_iff⟩

/-! ## Claim C6 -/

/-- Claim C6 counterexample: with no metadata object supplied at all,
`replaceTemplateVariables` leaves `{app}` in place instead of replacing
it by `Unknown` (the `if (metadata)` guard skips the metadata
substitutions entirely). -/
theorem c6_counterexample :
    replaceTemplateVariables (s "{app}") ⟨[]⟩ none = s "{app}"
    ∧ replaceTemplateVariables (s "{app}") ⟨[]⟩ none ≠ s "Unknown" := by
  constructor <;> decide

/-- Claim C6 (amended): when a metadata object is supplied, `{app}` and
`{domain}` are replaced by the sanitized `appName`/`domain`, defaulting
to the literals `Unknown`/`General` when the corresponding field is
missing or empty; when metadata is absent entirely the placeholders are
left unreplaced (only configured path placeholders are substituted). -/
theorem c6_amended (template : Str) :
    (replaceTemplateVariables template ⟨[]⟩ none = template)
    ∧ (∀ appF domF : Option Str,
        (appF = none ∨ appF = some []) → (domF = none ∨ domF = some []) →
        replaceTemplateVariables template ⟨[]⟩ (some ⟨appF, domF⟩) =
          replaceAllL (replaceAllL template (s "{app}") (s "Unknown"))
            (s "{domain}") (s "General"))
    ∧ (∀ a d : Str, a ≠ [] → d ≠ [] →
        replaceTemplateVariables template ⟨[]⟩ (some ⟨some a, some d⟩) =
          replaceAllL (replaceAllL template (s "{app}") (sanitizeForPath a))
            (s "{domain}") (sanitizeForPath d)) := by
  refine ⟨rfl, ?_, ?_⟩
  · rintro appF domF (rfl | rfl) (rfl | rfl) <;> rfl
  · intro a d ha hd
    simp [replaceTemplateVariables, ha, hd]

/-- Witness for the amended C6 at concrete templates and metadata. -/
theorem c6_amended_witness :
    replaceTemplateVariables (s "x/{app}/{domain}") ⟨[]⟩ (some ⟨some [], none⟩) =
      replaceAllL (replaceAllL (s "x/{app}/{domain}") (s "{app}") (s "Unknown"))
        (s "{domain}") (s "General")
    ∧ replaceTemplateVariables (s "x/{app}") ⟨[]⟩ (some ⟨some (s "My App"), some (s "d.com")⟩) =
      replaceAllL (replaceAllL (s "x/{app}") (s "{app}") (sanitizeForPath (s "My App")))
        (s "{domain}") (sanitizeForPath (s "d.com")) :=
  ⟨(c6_amended (s "x/{app}/{domain}")).2.1 (some []) none (Or.inr rfl) (Or.inl rfl),
   (c6_amended (s "x/{app}")).2.2 (s "My App") (s "d.com") (by decide) (by decide)⟩

end FlowSquire

